import Mathlib

/-!
Verification of the panic-persist RAM message protocol.

The development shallowly embeds the single source file of the crate:
the writer `Ram::write_str` (which appends bytes of a panic message into a
reserved RAM region and maintains a magic/length header) and the readers
`get_panic_message_bytes` / `get_panic_message_utf8` (which validate,
extract, and invalidate the stored message on next boot).

Modelling choices:
  - The region is addressed relative to its start (`_panic_dump_start`);
    `max_len` is the region length (`_panic_dump_end - _panic_dump_start`).
  - Memory is a function from relative byte address to the stored byte.
  - Every store the code performs is recorded as an event `(address, byte)`;
    the resulting memory is the left fold of the events over the initial
    memory.  This lets theorems speak both about the final memory and about
    which addresses were written at all.
  - The native word size `size_of::<usize>()` is a parameter `ws`; on the
    32-bit targets the crate supports it is 4.  Multi-byte loads and stores
    (`read_unaligned` / `write_unaligned` on `*mut usize`) are little-endian,
    as on the ARM Cortex-M targets named by the crate documentation.
-/

/-- A region memory: the byte stored at each address relative to the start of
the panic dump region. -/
def Mem : Type := Nat → Nat

/-- Apply one byte-store event `(address, byte)` to a memory. -/
def applyEvent (m : Mem) (e : Nat × Nat) : Mem :=
  fun a => if a = e.1 then e.2 else m a

/-- Apply a list of byte-store events, oldest first. -/
def applyEvents (m : Mem) (es : List (Nat × Nat)) : Mem :=
  es.foldl applyEvent m

/-- Store events of a little-endian unaligned word write of `v` (width `ws`
bytes) at address `addr`: byte `i` of the word goes to `addr + i`.  Models
`ptr.cast::<usize>().write_unaligned(v)`. -/
def writeWordEvents : Nat → Nat → Nat → List (Nat × Nat)
  | 0, _, _ => []
  | w + 1, addr, v => (addr, v % 256) :: writeWordEvents w (addr + 1) (v / 256)

/-- Store events of a byte-wise copy of `bs` to consecutive addresses starting
at `addr`.  Models `core::ptr::copy(src, dst, len)`. -/
def copyEvents : Nat → List Nat → List (Nat × Nat)
  | _, [] => []
  | addr, b :: bs => (addr, b) :: copyEvents (addr + 1) bs

/-- Little-endian unaligned word read of width `ws` bytes at address `addr`.
Models `core::ptr::read_unaligned` on a `*mut usize`. -/
def readWord : Nat → Mem → Nat → Nat
  | 0, _, _ => 0
  | w + 1, m, addr => m addr % 256 + 256 * readWord w m (addr + 1)

/-- A region that is all zeroes, as after power-on of a zeroed RAM bank. -/
def zeroMem : Mem := fun _ => 0

/-- The writer state: `Ram { offset }`, the running count of payload bytes
written so far by this writer instance. -/
structure Ram where
  offset : Nat
deriving Repr, DecidableEq

/-- Result of one `Ram::write_str` call: the `fmt::Result` (`true` = `Ok(())`),
the updated writer, the trace of byte stores performed, and the number of
payload bytes copied (the local `str_len`, `0` on the early-return path). -/
structure WriteOut where
  isOk : Bool
  ram : Ram
  events : List (Nat × Nat)
  written : Nat
deriving Repr, DecidableEq

/-- Shallow embedding of `Ram::write_str` (src/lib.rs lines 117-168).
`ws` is `size_of::<usize>()` and `max_len` the region length.  The source
computes `max_len_str = max_len - size_of::<usize>() - size_of::<usize>()`,
returns `Ok(())` at once when `offset >= max_len_str`, and otherwise writes
the magic word `0x0FACADE0` at the region start, copies
`str_len = min(max_len_str - offset, data.len())` payload bytes to byte
offset `8 + offset` (the literal `start_ptr.offset(8)`), advances the offset,
and stores it to the length field at byte offset `4` (the literal
`start_ptr.offset(4)`). -/
def Ram.write_str (ws max_len : Nat) (self : Ram) (data : List Nat) : WriteOut :=
  let len := data.length
  let max_len_str := max_len - ws - ws
  if self.offset ≥ max_len_str then
    ⟨true, self, [], 0⟩
  else
    let str_len := min (max_len_str - self.offset) len
    let magicEvs := writeWordEvents ws 0 0x0FACADE0
    let copyEvs := copyEvents (8 + self.offset) (data.take str_len)
    let newOffset := self.offset + str_len
    let lenEvs := writeWordEvents ws 4 newOffset
    ⟨true, ⟨newOffset⟩, magicEvs ++ copyEvs ++ lenEvs, str_len⟩

/-- Shallow embedding of `get_panic_message_bytes` (src/lib.rs lines 178-212).
Returns the optional recovered byte view together with the trace of byte
stores the call performs.  The source checks the magic word at the region
start, returns `None` on mismatch, otherwise clears the magic word, reads the
length field at byte offset `4` (after the clear, per program order), rejects
`len > max_len_str`, and returns the `len` bytes starting at byte offset `8`
(`from_raw_parts(start_ptr.offset(8), len)`). -/
def get_panic_message_bytes (ws max_len : Nat) (mem : Mem) :
    Option (List Nat) × List (Nat × Nat) :=
  if 0x0FACADE0 ≠ readWord ws mem 0 then
    (none, [])
  else
    let clearEvs := writeWordEvents ws 0 0x00000000
    let mem1 := applyEvents mem clearEvs
    let max_len_str := max_len - ws - ws
    let len := readWord ws mem1 4
    if len > max_len_str then
      (none, clearEvs)
    else
      (some ((List.range len).map fun i => mem1 (8 + i)), clearEvs)

/-- Run the writer over a sequence of messages (several sequential
`write_str` calls on one writer instance), threading the writer state and
the region memory. -/
def runWrites (ws max_len : Nat) (msgs : List (List Nat)) (s : Ram × Mem) : Ram × Mem :=
  msgs.foldl
    (fun s msg =>
      let out := Ram.write_str ws max_len s.1 msg
      (out.ram, applyEvents s.2 out.events))
    s

/-- The payload byte counts reported by each successive `write_str` call of a
sequence, starting from writer offset `off` (the writer state determines them;
`write_str` never reads the region memory). -/
def writtenList (ws max_len : Nat) : Nat → List (List Nat) → List Nat
  | _, [] => []
  | off, msg :: msgs =>
    let out := Ram.write_str ws max_len ⟨off⟩ msg
    out.written :: writtenList ws max_len out.ram.offset msgs

/-- Follows the wording of the spec, section 6 (memory layout contract):
the length field lives at byte offset `word_size` and the payload at byte
offset `2*word_size` for the native word size `ws`.  Identical to
`Ram.write_str` apart from these two store addresses; kept only to compare
the implementation against the spec layout. -/
def write_str_layout (ws max_len : Nat) (self : Ram) (data : List Nat) : WriteOut :=
  let len := data.length
  let max_len_str := max_len - ws - ws
  if self.offset ≥ max_len_str then
    ⟨true, self, [], 0⟩
  else
    let str_len := min (max_len_str - self.offset) len
    let magicEvs := writeWordEvents ws 0 0x0FACADE0
    let copyEvs := copyEvents (2 * ws + self.offset) (data.take str_len)
    let newOffset := self.offset + str_len
    let lenEvs := writeWordEvents ws ws newOffset
    ⟨true, ⟨newOffset⟩, magicEvs ++ copyEvs ++ lenEvs, str_len⟩

/-- Follows the wording of the spec, section 6 (memory layout contract):
the reader loads the length field at byte offset `word_size` and the payload
at byte offset `2*word_size`.  Identical to `get_panic_message_bytes` apart
from these two load addresses; kept only to compare the implementation
against the spec layout. -/
def get_panic_message_bytes_layout (ws max_len : Nat) (mem : Mem) :
    Option (List Nat) × List (Nat × Nat) :=
  if 0x0FACADE0 ≠ readWord ws mem 0 then
    (none, [])
  else
    let clearEvs := writeWordEvents ws 0 0x00000000
    let mem1 := applyEvents mem clearEvs
    let max_len_str := max_len - ws - ws
    let len := readWord ws mem1 ws
    if len > max_len_str then
      (none, clearEvs)
    else
      (some ((List.range len).map fun i => mem1 (2 * ws + i)), clearEvs)

/-- Continuation byte test of the UTF-8 validation in `core::str::from_utf8`:
the byte lies in `0x80 ..= 0xBF`. -/
def isCont (b : Nat) : Bool :=
  decide (0x80 ≤ b) && decide (b ≤ 0xBF)

/-- Second-byte constraint of a three-byte UTF-8 sequence, per the validation
table of `core::str::from_utf8`: `0xE0` demands `0xA0 ..= 0xBF` (no overlong
forms), `0xED` demands `0x80 ..= 0x9F` (no surrogates), the rest demand an
ordinary continuation byte. -/
def valid3b1 (b0 b1 : Nat) : Bool :=
  if b0 = 0xE0 then decide (0xA0 ≤ b1) && decide (b1 ≤ 0xBF)
  else if b0 = 0xED then decide (0x80 ≤ b1) && decide (b1 ≤ 0x9F)
  else isCont b1

/-- Second-byte constraint of a four-byte UTF-8 sequence, per the validation
table of `core::str::from_utf8`: `0xF0` demands `0x90 ..= 0xBF` (no overlong
forms), `0xF4` demands `0x80 ..= 0x8F` (maximum `U+10FFFF`), the rest demand
an ordinary continuation byte. -/
def valid4b1 (b0 b1 : Nat) : Bool :=
  if b0 = 0xF0 then decide (0x90 ≤ b1) && decide (b1 ≤ 0xBF)
  else if b0 = 0xF4 then decide (0x80 ≤ b1) && decide (b1 ≤ 0x8F)
  else isCont b1

/-- Whether `c` is exactly one complete, valid UTF-8 character encoding, per
the validation table of `core::str::from_utf8`: an ASCII byte; a lead in
`0xC2 ..= 0xDF` plus a continuation byte; a lead in `0xE0 ..= 0xEF` plus its
constrained second byte and a continuation byte; or a lead in
`0xF0 ..= 0xF4` plus its constrained second byte and two continuation
bytes.  Everything else (lone bytes `0x80 ..= 0xC1` or `0xF5 ..`, overlong
forms, surrogates, truncated sequences) is rejected. -/
def utf8CharOk (c : List Nat) : Bool :=
  match c with
  | [b0] => decide (b0 < 0x80)
  | [b0, b1] => decide (0xC2 ≤ b0 ∧ b0 ≤ 0xDF) && isCont b1
  | [b0, b1, b2] => decide (0xE0 ≤ b0 ∧ b0 ≤ 0xEF) && valid3b1 b0 b1 && isCont b2
  | [b0, b1, b2, b3] =>
    decide (0xF0 ≤ b0 ∧ b0 ≤ 0xF4) && valid4b1 b0 b1 && isCont b2 && isCont b3
  | _ => false

/-- Length in bytes of the valid UTF-8 character at the head of `bs`, or
`none` when `bs` starts with no complete valid character (the lead-byte
ranges of the one- to four-byte forms are disjoint, so at most one prefix
length can qualify). -/
def utf8CharLen (bs : List Nat) : Option Nat :=
  if utf8CharOk (bs.take 1) then some 1
  else if utf8CharOk (bs.take 2) then some 2
  else if utf8CharOk (bs.take 3) then some 3
  else if utf8CharOk (bs.take 4) then some 4
  else none

/-- Fuel-driven scan of a byte sequence, consuming one valid UTF-8 character
at a time and returning the byte index where the scan stops.  The fuel only
serves structural recursion; `bs.length` fuel always suffices since every
consumed character is at least one byte. -/
def utf8Scan (fuel : Nat) (bs : List Nat) : Nat :=
  match fuel with
  | 0 => 0
  | fuel + 1 =>
    match utf8CharLen bs with
    | none => 0
    | some k => k + utf8Scan fuel (bs.drop k)

/-- Byte index up to which a sequence validates as UTF-8: the position
reported by `Utf8Error::valid_up_to()` when `core::str::from_utf8` fails
(and the full length when it succeeds). -/
def utf8ValidUpTo (bs : List Nat) : Nat :=
  utf8Scan bs.length bs

/-- Fuel-driven UTF-8 validity check: the whole sequence decomposes into
valid characters.  The fuel only serves structural recursion. -/
def utf8Ok (fuel : Nat) (bs : List Nat) : Bool :=
  match fuel with
  | 0 => bs.isEmpty
  | fuel + 1 =>
    if bs.isEmpty then true
    else
      match utf8CharLen bs with
      | none => false
      | some k => utf8Ok fuel (bs.drop k)

/-- Whether a byte sequence is valid UTF-8, i.e. whether
`core::str::from_utf8` succeeds on it. -/
def isUtf8 (bs : List Nat) : Bool :=
  utf8Ok bs.length bs

/-- The UTF-8 recovery step of `get_panic_message_utf8` (src/lib.rs lines
221-238) applied to the recovered byte view: `from_utf8` succeeding is
`isUtf8`; on failure the source retries on `bytes[..utf_err.valid_up_to()]`
and falls back to `None` should even that fail.  Strings are modelled by
their UTF-8 bytes. -/
def utf8Recover (bytes : List Nat) : Option (List Nat) :=
  if isUtf8 bytes then some bytes
  else
    let valid := bytes.take (utf8ValidUpTo bytes)
    if isUtf8 valid then some valid else none

/-- Shallow embedding of `get_panic_message_utf8` (src/lib.rs lines 221-238):
recover the byte view through `get_panic_message_bytes` (the `?` operator
propagates `None`), then validate it as UTF-8. -/
def get_panic_message_utf8 (ws max_len : Nat) (mem : Mem) :
    Option (List Nat) × List (Nat × Nat) :=
  let r := get_panic_message_bytes ws max_len mem
  match r.1 with
  | none => (none, r.2)
  | some bytes => (utf8Recover bytes, r.2)

-- Sanity checks of the embedding on the spec example scenarios.
example :
    (get_panic_message_bytes 4 108
      (applyEvents zeroMem (Ram.write_str 4 108 ⟨0⟩ [111, 111, 112, 115]).events)).1
      = some [111, 111, 112, 115] := by decide

example :
    (Ram.write_str 4 28 ⟨0⟩ (List.range 34)).written = 20 := by decide

example : (get_panic_message_bytes 4 16 zeroMem).1 = none := by decide

example : isUtf8 [0x68, 0xC3, 0xA9] = true := by decide
example : isUtf8 [0x68, 0xC3] = false := by decide
example : utf8ValidUpTo [0x68, 0xC3] = 1 := by decide
example : utf8Recover [0x68, 0xC3] = some [0x68] := by decide
example : utf8ValidUpTo [0xED, 0xA0, 0x80] = 0 := by decide
example : isUtf8 [0xF4, 0x8F, 0xBF, 0xBF] = true := by decide
example : isUtf8 [0xF4, 0x90, 0x80, 0x80] = false := by decide
example : isUtf8 [0xC0, 0x80] = false := by decide

/-- A 16-byte region stamped with the little-endian magic word `0x0FACADE0`
and length field 0: a valid empty message. -/
def stampedMem : Mem := fun a =>
  if a = 0 then 0xE0 else if a = 1 then 0xAD else if a = 2 then 0xAC
  else if a = 3 then 0x0F else 0

/-- A 16-byte region stamped with the magic word but with the length field
forced to `0xFFFFFFFF`, far beyond any capacity: a corrupt record. -/
def corruptMem : Mem := fun a =>
  if a = 0 then 0xE0 else if a = 1 then 0xAD else if a = 2 then 0xAC
  else if a = 3 then 0x0F
  else if a = 4 then 0xFF else if a = 5 then 0xFF else if a = 6 then 0xFF
  else if a = 7 then 0xFF else 0

/-- A 32-byte region holding a one-byte message laid out per the spec layout
for word size 8: magic word (8 bytes, little-endian) at offset 0, length 1
at offset 8, payload byte 65 at offset 16. -/
def layoutMem8 : Mem := fun a =>
  if a = 0 then 0xE0 else if a = 1 then 0xAD else if a = 2 then 0xAC
  else if a = 3 then 0x0F else if a = 8 then 1 else if a = 16 then 65 else 0

/-- A header-only (8-byte) region whose length field holds the leftover
value 99 before any write. -/
def c9BadMem : Mem := fun a => if a = 4 then 99 else 0

/-- A 16-byte region stamped with the magic word, length 2 and the payload
`[0x68, 0xC3]`: the text "hé" truncated in the middle of the two-byte
character `é`. -/
def utf8Mem : Mem := fun a =>
  if a = 0 then 0xE0 else if a = 1 then 0xAD else if a = 2 then 0xAC
  else if a = 3 then 0x0F
  else if a = 4 then 2
  else if a = 8 then 0x68 else if a = 9 then 0xC3 else 0

/-! Helper lemmas about the event-based memory model. -/

theorem applyEvents_nil (m : Mem) : applyEvents m [] = m := rfl

theorem applyEvents_cons (m : Mem) (e : Nat × Nat) (es : List (Nat × Nat)) :
    applyEvents m (e :: es) = applyEvents (applyEvent m e) es := rfl

theorem applyEvents_append (m : Mem) (es1 es2 : List (Nat × Nat)) :
    applyEvents m (es1 ++ es2) = applyEvents (applyEvents m es1) es2 := by
  simp [applyEvents]

theorem applyEvents_of_ne (a : Nat) :
    ∀ (es : List (Nat × Nat)) (m : Mem), (∀ e ∈ es, e.1 ≠ a) → applyEvents m es a = m a := by
  intro es
  induction es with
  | nil => intro m _; rfl
  | cons e es ih =>
    intro m h
    rw [applyEvents_cons, ih _ (fun x hx => h x (List.mem_cons_of_mem e hx))]
    simp only [applyEvent]
    rw [if_neg]
    exact fun hc => h e (List.mem_cons_self e es) (hc ▸ rfl)

theorem writeWordEvents_addr :
    ∀ (w addr v : Nat), ∀ e ∈ writeWordEvents w addr v, addr ≤ e.1 ∧ e.1 < addr + w := by
  intro w
  induction w with
  | zero => intro addr v e he; simp [writeWordEvents] at he
  | succ w ih =>
    intro addr v e he
    simp only [writeWordEvents, List.mem_cons] at he
    rcases he with rfl | he
    · omega
    · have := ih (addr + 1) (v / 256) e he
      omega

theorem copyEvents_addr :
    ∀ (bs : List Nat) (addr : Nat), ∀ e ∈ copyEvents addr bs, addr ≤ e.1 ∧ e.1 < addr + bs.length := by
  intro bs
  induction bs with
  | nil => intro addr e he; simp [copyEvents] at he
  | cons b bs ih =>
    intro addr e he
    simp only [copyEvents, List.mem_cons] at he
    rcases he with rfl | he
    · simp
    · have := ih (addr + 1) e he
      simp only [List.length_cons]
      omega

theorem readWord_congr :
    ∀ (w : Nat) (m1 m2 : Mem) (addr : Nat),
      (∀ a, addr ≤ a → a < addr + w → m1 a = m2 a) →
      readWord w m1 addr = readWord w m2 addr := by
  intro w
  induction w with
  | zero => intro m1 m2 addr _; rfl
  | succ w ih =>
    intro m1 m2 addr h
    simp only [readWord]
    rw [h addr (le_refl addr) (by omega),
      ih m1 m2 (addr + 1) (fun a h1 h2 => h a (by omega) (by omega))]

theorem readWord_writeWord :
    ∀ (w : Nat) (m : Mem) (addr v : Nat),
      readWord w (applyEvents m (writeWordEvents w addr v)) addr = v % 256 ^ w := by
  intro w
  induction w with
  | zero => intro m addr v; simp [readWord, Nat.mod_one]
  | succ w ih =>
    intro m addr v
    simp only [writeWordEvents, readWord, applyEvents_cons]
    have hout :
        applyEvents (applyEvent m (addr, v % 256)) (writeWordEvents w (addr + 1) (v / 256)) addr
          = applyEvent m (addr, v % 256) addr := by
      apply applyEvents_of_ne
      intro e he
      have := writeWordEvents_addr w (addr + 1) (v / 256) e he
      omega
    rw [hout]
    rw [ih (applyEvent m (addr, v % 256)) (addr + 1) (v / 256)]
    have h2 : (256 : Nat) ^ (w + 1) = 256 * 256 ^ w := by ring
    rw [h2, Nat.mod_mul]
    simp only [applyEvent, eq_self_iff_true, if_true]
    omega

theorem applyEvents_copy_get :
    ∀ (bs : List Nat) (m : Mem) (addr i : Nat), i < bs.length →
      applyEvents m (copyEvents addr bs) (addr + i) = bs.getD i 0 := by
  intro bs
  induction bs with
  | nil => intro m addr i h; simp at h
  | cons b bs ih =>
    intro m addr i h
    simp only [copyEvents, applyEvents_cons]
    match i with
    | 0 =>
      rw [applyEvents_of_ne]
      · simp [applyEvent]
      · intro e he
        have := copyEvents_addr bs (addr + 1) e he
        omega
    | Nat.succ j =>
      have : addr + (j + 1) = (addr + 1) + j := by omega
      rw [this, ih _ (addr + 1) j (by simpa using h)]
      rfl

theorem range_map_getD (bs : List Nat) :
    (List.range bs.length).map (fun i => bs.getD i 0) = bs := by
  apply List.ext_getElem
  · simp
  · intro i h1 h2
    simp only [List.getElem_map, List.getElem_range]
    exact List.getD_eq_getElem bs 0 h2

/-! Unfolding lemmas for the writer. -/

theorem write_str_noop (ws max_len off : Nat) (data : List Nat)
    (h : max_len - ws - ws ≤ off) :
    Ram.write_str ws max_len ⟨off⟩ data = ⟨true, ⟨off⟩, [], 0⟩ := by
  simp only [Ram.write_str]
  rw [if_pos h]

/-- In both branches of `write_str` the final offset is the old offset plus
the number of payload bytes copied. -/
theorem write_str_ram_offset (ws max_len : Nat) (self : Ram) (data : List Nat) :
    (Ram.write_str ws max_len self data).ram.offset
      = self.offset + (Ram.write_str ws max_len self data).written := by
  simp only [Ram.write_str]
  split
  · rfl
  · rfl

theorem write_str_active (ws max_len off : Nat) (data : List Nat)
    (h : off < max_len - ws - ws) :
    Ram.write_str ws max_len ⟨off⟩ data =
      ⟨true, ⟨off + min (max_len - ws - ws - off) data.length⟩,
        writeWordEvents ws 0 0x0FACADE0
          ++ copyEvents (8 + off) (data.take (min (max_len - ws - ws - off) data.length))
          ++ writeWordEvents ws 4 (off + min (max_len - ws - ws - off) data.length),
        min (max_len - ws - ws - off) data.length⟩ := by
  simp only [Ram.write_str]
  rw [if_neg (by omega)]

/-! Values of the region memory after one active `write_str` call at word
size 4: the post-write event list is `writeWordEvents 4 0 0x0FACADE0 ++
copyEvents (8 + off) bs ++ writeWordEvents 4 4 lenVal`, and the lemmas read
off the magic word, the length field and the payload bytes from it. -/

theorem readWord_magic_after (mem : Mem) (bs : List Nat) (off lenVal : Nat) :
    readWord 4 (applyEvents mem
      (writeWordEvents 4 0 0x0FACADE0 ++ copyEvents (8 + off) bs
        ++ writeWordEvents 4 4 lenVal)) 0 = 0x0FACADE0 := by
  rw [applyEvents_append, applyEvents_append]
  have hcongr :
      readWord 4
          (applyEvents (applyEvents (applyEvents mem (writeWordEvents 4 0 0x0FACADE0))
            (copyEvents (8 + off) bs)) (writeWordEvents 4 4 lenVal)) 0
        = readWord 4 (applyEvents mem (writeWordEvents 4 0 0x0FACADE0)) 0 := by
    apply readWord_congr
    intro a ha1 ha2
    rw [applyEvents_of_ne a _ _
        (fun e he => by have := writeWordEvents_addr 4 4 lenVal e he; omega),
      applyEvents_of_ne a _ _
        (fun e he => by have := copyEvents_addr bs (8 + off) e he; omega)]
  rw [hcongr, readWord_writeWord]
  norm_num

theorem readWord_len_after (mem : Mem) (bs : List Nat) (off lenVal : Nat) :
    readWord 4 (applyEvents mem
      (writeWordEvents 4 0 0x0FACADE0 ++ copyEvents (8 + off) bs
        ++ writeWordEvents 4 4 lenVal)) 4 = lenVal % 256 ^ 4 := by
  rw [applyEvents_append, applyEvents_append, readWord_writeWord]

theorem payload_after (mem : Mem) (bs : List Nat) (off lenVal i : Nat)
    (hi : i < bs.length) :
    applyEvents mem
      (writeWordEvents 4 0 0x0FACADE0 ++ copyEvents (8 + off) bs
        ++ writeWordEvents 4 4 lenVal) (8 + off + i) = bs.getD i 0 := by
  rw [applyEvents_append, applyEvents_append]
  rw [applyEvents_of_ne _ _ _
      (fun e he => by have := writeWordEvents_addr 4 4 lenVal e he; omega)]
  exact applyEvents_copy_get bs _ (8 + off) i hi

/-- After the reader clears the magic word, addresses from 4 on are
untouched. -/
theorem clear_frame (mem : Mem) (a : Nat) (h : 4 ≤ a) :
    applyEvents mem (writeWordEvents 4 0 0x00000000) a = mem a := by
  apply applyEvents_of_ne
  intro e he
  have := writeWordEvents_addr 4 0 0x00000000 e he
  omega

/-- Core round trip at word size 4: one `write_str` call from a fresh writer
followed by `get_panic_message_bytes` recovers the first
`min (capacity, data.length)` bytes of the data, for any initial region
memory, provided the capacity `max_len - 8` is positive. -/
theorem write_then_read (max_len : Nat) (mem : Mem) (data : List Nat)
    (h1 : 8 < max_len) (h2 : max_len < 2 ^ 32) :
    (get_panic_message_bytes 4 max_len
        (applyEvents mem (Ram.write_str 4 max_len ⟨0⟩ data).events)).1
      = some (data.take (min (max_len - 8) data.length)) := by
  have e1 : max_len - 4 - 4 = max_len - 8 := by omega
  have hw := write_str_active 4 max_len 0 data (by omega)
  rw [hw]
  rw [e1, Nat.sub_zero, Nat.zero_add]
  set n := min (max_len - 8) data.length with hn
  have hnlen : n ≤ data.length := min_le_right _ _
  have hncap : n ≤ max_len - 8 := min_le_left _ _
  have hbs : (data.take n).length = n := by
    rw [List.length_take]
    omega
  set memW := applyEvents mem
    (writeWordEvents 4 0 0x0FACADE0 ++ copyEvents (8 + 0) (data.take n)
      ++ writeWordEvents 4 4 n) with hmemW
  have hmagic : readWord 4 memW 0 = 0x0FACADE0 := readWord_magic_after mem _ 0 n
  simp only [get_panic_message_bytes]
  rw [hmagic, if_neg (by simp)]
  have hlen :
      readWord 4 (applyEvents memW (writeWordEvents 4 0 0x00000000)) 4 = n := by
    have hc : readWord 4 (applyEvents memW (writeWordEvents 4 0 0x00000000)) 4
        = readWord 4 memW 4 :=
      readWord_congr 4 _ memW 4 (fun a ha1 _ => clear_frame memW a ha1)
    rw [hc, hmemW, readWord_len_after]
    have : n < 256 ^ 4 := by norm_num; omega
    exact Nat.mod_eq_of_lt this
  rw [hlen, e1, if_neg (by omega)]
  refine congrArg some ?_
  have hpay : ∀ i, i < n →
      applyEvents memW (writeWordEvents 4 0 0x00000000) (8 + i) = (data.take n).getD i 0 := by
    intro i hi
    rw [clear_frame memW (8 + i) (by omega), hmemW]
    have := payload_after mem (data.take n) 0 n i (by omega)
    simpa using this
  apply List.ext_getElem
  · simp [hbs]
  · intro i hi1 hi2
    have hi : i < n := by simpa using hi1
    simp only [List.getElem_map, List.getElem_range]
    rw [hpay i hi]
    exact List.getD_eq_getElem (data.take n) 0 hi2

/-- Shape of a reader call: either the magic word does not match and the call
is a pure no-op returning nothing, or it matches and the stores of the call
are exactly the clearing of the magic word. -/
theorem reader_shape (ws max_len : Nat) (mem : Mem) :
    (0x0FACADE0 ≠ readWord ws mem 0 ∧ get_panic_message_bytes ws max_len mem = (none, []))
    ∨ (0x0FACADE0 = readWord ws mem 0 ∧
        (get_panic_message_bytes ws max_len mem).2 = writeWordEvents ws 0 0x00000000) := by
  by_cases hm : 0x0FACADE0 ≠ readWord ws mem 0
  · left
    refine ⟨hm, ?_⟩
    simp only [get_panic_message_bytes]
    rw [if_pos hm]
  · right
    refine ⟨not_ne_iff.mp hm, ?_⟩
    simp only [get_panic_message_bytes]
    rw [if_neg hm]
    split
    · rfl
    · rfl

/-- If the reader returns a message, the magic word matched. -/
theorem reader_some_magic (ws max_len : Nat) (mem : Mem) (msg : List Nat)
    (h : (get_panic_message_bytes ws max_len mem).1 = some msg) :
    0x0FACADE0 = readWord ws mem 0 ∧
    (get_panic_message_bytes ws max_len mem).2 = writeWordEvents ws 0 0x00000000 := by
  rcases reader_shape ws max_len mem with ⟨hm, heq⟩ | ⟨hm, hev⟩
  · rw [heq] at h
    simp at h
  · exact ⟨hm, hev⟩

/-! Claim theorems. -/

/-- Claim C1, counterexample to the claim as stated: with capacity
`(region_end - region_start) - 2*word_size = 0` (an 8-byte region holding
only the header) and the empty message (the only message of length at most
that capacity), the write call is a no-op, so nothing marks the region and
reading back yields nothing instead of `Some` of the empty message. -/
theorem c1_round_trip_ce :
    ([] : List Nat).length ≤ 8 - 8 ∧
    (get_panic_message_bytes 4 8
        (applyEvents zeroMem (Ram.write_str 4 8 ⟨0⟩ []).events)).1 ≠ some [] := by
  constructor
  · decide
  · decide

/-- Claim C1 (amended): for every message `data` with length at most the
capacity `max_len - 8`, provided the capacity is positive (`8 < max_len`;
the degenerate header-only region is the counterexample) and the region fits
the 32-bit address space, writing `data` into a fresh writer via `write_str`
and then calling `get_panic_message_bytes` returns `some data`, byte for
byte, for any prior contents of the region. -/
theorem c1_round_trip (max_len : Nat) (mem : Mem) (data : List Nat)
    (hcap : 8 < max_len) (hml : max_len < 2 ^ 32)
    (hlen : data.length ≤ max_len - 8) :
    (get_panic_message_bytes 4 max_len
        (applyEvents mem (Ram.write_str 4 max_len ⟨0⟩ data).events)).1
      = some data := by
  have h := write_then_read max_len mem data hcap hml
  rwa [min_eq_right hlen, List.take_length] at h

/-- Witness for C1 at a concrete input: an 16-byte region (capacity 8) and
the two-byte message `[104, 105]`. -/
theorem c1_round_trip_witness :
    8 < 16 ∧ (16 : Nat) < 2 ^ 32 ∧ ([104, 105] : List Nat).length ≤ 16 - 8 ∧
    (get_panic_message_bytes 4 16
        (applyEvents zeroMem (Ram.write_str 4 16 ⟨0⟩ [104, 105]).events)).1
      = some [104, 105] :=
  ⟨by decide, by norm_num, by decide,
    c1_round_trip 16 zeroMem [104, 105] (by decide) (by norm_num) (by decide)⟩

/-- Claim C5, counterexample to the claim as stated: with capacity
`8 - 8 = 0` and a message of length `capacity + 1`, the write call is a
no-op (the writer offset already equals the capacity), so reading back
yields nothing instead of `Some` of the first `capacity = 0` bytes. -/
theorem c5_truncation_ce :
    ([65] : List Nat).length = (8 - 8) + 1 ∧
    (get_panic_message_bytes 4 8
        (applyEvents zeroMem (Ram.write_str 4 8 ⟨0⟩ [65]).events)).1
      ≠ some (([65] : List Nat).take (8 - 8)) := by
  constructor
  · decide
  · decide

/-- Claim C5 (amended): for every message `data` of length `capacity + K`
with `K > 0`, provided the capacity `max_len - 8` is positive (the
degenerate header-only region is the counterexample) and the region fits the
32-bit address space, writing `data` into a fresh writer and reading back
returns exactly the first `capacity` bytes of `data`. -/
theorem c5_truncation_round_trip (max_len : Nat) (mem : Mem) (data : List Nat)
    (K : Nat) (hcap : 8 < max_len) (hml : max_len < 2 ^ 32)
    (hlen : data.length = (max_len - 8) + K) (hK : 0 < K) :
    (get_panic_message_bytes 4 max_len
        (applyEvents mem (Ram.write_str 4 max_len ⟨0⟩ data).events)).1
      = some (data.take (max_len - 8)) := by
  have h := write_then_read max_len mem data hcap hml
  rwa [min_eq_left (by omega)] at h

/-- Witness for C5 at a concrete input: a 12-byte region (capacity 4) and a
six-byte message, recovered as its first four bytes. -/
theorem c5_truncation_round_trip_witness :
    8 < 12 ∧ (12 : Nat) < 2 ^ 32 ∧
    ([1, 2, 3, 4, 5, 6] : List Nat).length = (12 - 8) + 2 ∧ 0 < 2 ∧
    (get_panic_message_bytes 4 12
        (applyEvents zeroMem (Ram.write_str 4 12 ⟨0⟩ [1, 2, 3, 4, 5, 6]).events)).1
      = some (([1, 2, 3, 4, 5, 6] : List Nat).take (12 - 8)) :=
  ⟨by decide, by norm_num, by decide, by decide,
    c5_truncation_round_trip 12 zeroMem [1, 2, 3, 4, 5, 6] 2 (by decide) (by norm_num)
      (by decide) (by decide)⟩

/-- Claim C6: once the writer offset has reached the capacity
`max_len - 2*ws`, every further `write_str` call returns `Ok` (`isOk`),
leaves the writer state unchanged, performs no store at all (so in
particular neither the payload bytes nor the header length field change),
and copies zero payload bytes. -/
theorem c6_noop_at_capacity (ws max_len off : Nat) (data : List Nat) (mem : Mem)
    (h : max_len - ws - ws ≤ off) :
    Ram.write_str ws max_len ⟨off⟩ data = ⟨true, ⟨off⟩, [], 0⟩ ∧
    applyEvents mem (Ram.write_str ws max_len ⟨off⟩ data).events = mem := by
  refine ⟨write_str_noop ws max_len off data h, ?_⟩
  rw [write_str_noop ws max_len off data h]
  rfl

/-- Witness for C6 at a concrete input: a 16-byte region (capacity 8) with
the writer offset already at 8. -/
theorem c6_noop_at_capacity_witness :
    16 - 4 - 4 ≤ 8 ∧
    (Ram.write_str 4 16 ⟨8⟩ [9, 9, 9] = ⟨true, ⟨8⟩, [], 0⟩ ∧
      applyEvents zeroMem (Ram.write_str 4 16 ⟨8⟩ [9, 9, 9]).events = zeroMem) :=
  ⟨by decide, c6_noop_at_capacity 4 16 8 [9, 9, 9] zeroMem (by decide)⟩

/-- Claim C2: when the capacity is well defined (`2*ws ≤ max_len`, the
claim's `C ≥ 0`) and the word size is at least 4 bytes (any platform the
crate can target), a single `write_str` call copies at most
`min (capacity - offset) L` payload bytes and every store it performs
(magic word, length field, payload copy) lands at an address inside
`[region_start, region_end)`, i.e. strictly below `max_len` in
region-relative terms. -/
theorem c2_bounds (ws max_len off : Nat) (data : List Nat)
    (hws : 4 ≤ ws) (hcap : 2 * ws ≤ max_len) :
    (∀ e ∈ (Ram.write_str ws max_len ⟨off⟩ data).events, e.1 < max_len) ∧
    (Ram.write_str ws max_len ⟨off⟩ data).written
      ≤ min (max_len - 2 * ws - off) data.length := by
  by_cases hoff : max_len - ws - ws ≤ off
  · rw [write_str_noop ws max_len off data hoff]
    constructor
    · intro e he
      simp at he
    · simp
  · push_neg at hoff
    rw [write_str_active ws max_len off data hoff]
    have hnd : min (max_len - ws - ws - off) data.length ≤ data.length :=
      min_le_right _ _
    have hnc : min (max_len - ws - ws - off) data.length ≤ max_len - ws - ws - off :=
      min_le_left _ _
    have htk : (data.take (min (max_len - ws - ws - off) data.length)).length
        = min (max_len - ws - ws - off) data.length := by
      rw [List.length_take]
      omega
    constructor
    · intro e he
      simp only [List.mem_append] at he
      rcases he with (he | he) | he
      · have := writeWordEvents_addr ws 0 0x0FACADE0 e he
        omega
      · have := copyEvents_addr _ (8 + off) e he
        rw [htk] at this
        omega
      · have := writeWordEvents_addr ws 4 _ e he
        omega
    · show min (max_len - ws - ws - off) data.length
          ≤ min (max_len - 2 * ws - off) data.length
      exact le_min (by omega) hnd

/-- Witness for C2 at a concrete input: word size 4, a 16-byte region,
offset 0 and a three-byte message. -/
theorem c2_bounds_witness :
    4 ≤ 4 ∧ 2 * 4 ≤ 16 ∧
    ((∀ e ∈ (Ram.write_str 4 16 ⟨0⟩ [1, 2, 3]).events, e.1 < 16) ∧
      (Ram.write_str 4 16 ⟨0⟩ [1, 2, 3]).written ≤ min (16 - 2 * 4 - 0) 3) :=
  ⟨by decide, by decide, c2_bounds 4 16 0 [1, 2, 3] (by decide) (by decide)⟩

/-- Claim C3: after a `get_panic_message_bytes` call that returns a message,
an immediately following call on the resulting region memory (no intervening
store) returns nothing: the first call cleared the magic word, so the second
finds `0` instead of the sentinel.  Holds for every word size. -/
theorem c3_one_shot (ws max_len : Nat) (mem : Mem) (msg : List Nat)
    (h : (get_panic_message_bytes ws max_len mem).1 = some msg) :
    (get_panic_message_bytes ws max_len
        (applyEvents mem (get_panic_message_bytes ws max_len mem).2)).1 = none := by
  obtain ⟨-, hev⟩ := reader_some_magic ws max_len mem msg h
  rw [hev]
  have hzero : readWord ws (applyEvents mem (writeWordEvents ws 0 0x00000000)) 0 = 0 := by
    rw [readWord_writeWord]
    exact Nat.zero_mod _
  simp only [get_panic_message_bytes]
  rw [if_pos (by rw [hzero]; norm_num)]

/-- Witness for C3 at a concrete input: a 16-byte region stamped with the
magic word and length 0; the first call returns the empty message, the
second returns nothing. -/
theorem c3_one_shot_witness :
    (get_panic_message_bytes 4 16 stampedMem).1 = some [] ∧
    (get_panic_message_bytes 4 16
        (applyEvents stampedMem (get_panic_message_bytes 4 16 stampedMem).2)).1 = none :=
  ⟨by decide, c3_one_shot 4 16 stampedMem [] (by decide)⟩

/-- Claim C4: when the magic word matches the sentinel but the stored length
field exceeds the capacity `max_len - 8`, the reader returns nothing, yet
still clears the magic word to zero (the corrupt record is discarded
permanently), and touches no address from 4 onward. -/
theorem c4_corrupt_len (max_len : Nat) (mem : Mem)
    (hmagic : readWord 4 mem 0 = 0x0FACADE0)
    (hlen : max_len - 8 < readWord 4 mem 4) :
    (get_panic_message_bytes 4 max_len mem).1 = none ∧
    readWord 4 (applyEvents mem (get_panic_message_bytes 4 max_len mem).2) 0 = 0 ∧
    (∀ a, 4 ≤ a → applyEvents mem (get_panic_message_bytes 4 max_len mem).2 a = mem a) := by
  have hlen1 : readWord 4 (applyEvents mem (writeWordEvents 4 0 0x00000000)) 4
      = readWord 4 mem 4 :=
    readWord_congr 4 _ mem 4 (fun a ha1 _ => clear_frame mem a ha1)
  have hshape : get_panic_message_bytes 4 max_len mem
      = (none, writeWordEvents 4 0 0x00000000) := by
    simp only [get_panic_message_bytes]
    rw [if_neg (by rw [hmagic]; simp)]
    rw [hlen1]
    rw [if_pos (by omega)]
  rw [hshape]
  refine ⟨rfl, ?_, ?_⟩
  · rw [readWord_writeWord]
    exact Nat.zero_mod _
  · intro a ha
    exact clear_frame mem a ha

/-- Witness for C4 at a concrete input: a 16-byte region stamped with the
magic word and an impossibly large length field. -/
theorem c4_corrupt_len_witness :
    readWord 4 corruptMem 0 = 0x0FACADE0 ∧ 16 - 8 < readWord 4 corruptMem 4 ∧
    ((get_panic_message_bytes 4 16 corruptMem).1 = none ∧
      readWord 4 (applyEvents corruptMem (get_panic_message_bytes 4 16 corruptMem).2) 0 = 0 ∧
      (∀ a, 4 ≤ a →
        applyEvents corruptMem (get_panic_message_bytes 4 16 corruptMem).2 a = corruptMem a)) :=
  ⟨by decide, by decide, c4_corrupt_len 16 corruptMem (by decide) (by decide)⟩

/-- Claim C10: the reader never modifies the length field or any payload
byte.  Its store trace is empty or exactly the events clearing the magic
word (addresses 0 to 3 at word size 4); on the no-message path it is empty;
every address from 4 on (the length field at 4..8 and all payload bytes
from 8 on) is left exactly as it was. -/
theorem c10_reader_frame (max_len : Nat) (mem : Mem) :
    ((get_panic_message_bytes 4 max_len mem).2 = [] ∨
      (get_panic_message_bytes 4 max_len mem).2 = writeWordEvents 4 0 0x00000000) ∧
    (0x0FACADE0 ≠ readWord 4 mem 0 → (get_panic_message_bytes 4 max_len mem).2 = []) ∧
    (∀ a, 4 ≤ a →
      applyEvents mem (get_panic_message_bytes 4 max_len mem).2 a = mem a) := by
  rcases reader_shape 4 max_len mem with ⟨hm, heq⟩ | ⟨hm, hev⟩
  · rw [heq]
    exact ⟨Or.inl rfl, fun _ => rfl, fun a _ => rfl⟩
  · rw [hev]
    refine ⟨Or.inr rfl, fun hc => absurd hm hc, fun a ha => clear_frame mem a ha⟩

/-- Witness for C10 at a concrete input: the stamped 16-byte region. -/
theorem c10_reader_frame_witness :
    ((get_panic_message_bytes 4 16 stampedMem).2 = [] ∨
      (get_panic_message_bytes 4 16 stampedMem).2 = writeWordEvents 4 0 0x00000000) ∧
    (0x0FACADE0 ≠ readWord 4 stampedMem 0 →
      (get_panic_message_bytes 4 16 stampedMem).2 = []) ∧
    (∀ a, 4 ≤ a →
      applyEvents stampedMem (get_panic_message_bytes 4 16 stampedMem).2 a = stampedMem a) :=
  c10_reader_frame 16 stampedMem

/-- Claim C7, counterexample to the claim as stated: the source hardcodes the
byte offsets 4 (length field) and 8 (payload), so at word size 8 the loads
and stores are not at `word_size` and `2*word_size`.  Observable divergence:
a region holding a valid one-byte message laid out at offsets 8 and 16 (the
claimed layout for word size 8) is recovered by a reader that follows the
claimed layout, but the implementation reads the length at byte offset 4,
sees a huge value, and rejects the record; the writer store traces differ on
the same input as well. -/
theorem c7_layout_ce :
    (get_panic_message_bytes_layout 8 32 layoutMem8).1 = some [65] ∧
    (get_panic_message_bytes 8 32 layoutMem8).1 = none ∧
    (Ram.write_str 8 32 ⟨0⟩ [65]).events ≠ (write_str_layout 8 32 ⟨0⟩ [65]).events := by
  refine ⟨by decide, by decide, by decide⟩

/-- Claim C7 (amended): the writer stores and the reader loads the length
field at fixed byte offset 4 and the payload at fixed byte offset 8; these
equal `word_size` and `2*word_size` exactly when the native word size is 4
bytes (the 32-bit targets the crate supports), where the implementation
coincides with the spec layout on every input. -/
theorem c7_layout_match (max_len : Nat) (self : Ram) (data : List Nat) (mem : Mem) :
    Ram.write_str 4 max_len self data = write_str_layout 4 max_len self data ∧
    get_panic_message_bytes 4 max_len mem = get_panic_message_bytes_layout 4 max_len mem :=
  ⟨rfl, rfl⟩

/-! Machinery for the multi-append invariant (claim C9). -/

theorem runWrites_append (ws max_len : Nat) (l1 l2 : List (List Nat)) (s : Ram × Mem) :
    runWrites ws max_len (l1 ++ l2) s = runWrites ws max_len l2 (runWrites ws max_len l1 s) := by
  simp [runWrites]

/-- After an active `write_str` call the length field holds the new offset,
which stays within the capacity. -/
theorem step_good_active (max_len : Nat) (h32 : max_len < 2 ^ 32) (off : Nat)
    (mem : Mem) (msg : List Nat) (hoff : off < max_len - 4 - 4) :
    readWord 4 (applyEvents mem (Ram.write_str 4 max_len ⟨off⟩ msg).events) 4
        = (Ram.write_str 4 max_len ⟨off⟩ msg).ram.offset ∧
    (Ram.write_str 4 max_len ⟨off⟩ msg).ram.offset ≤ max_len - 8 := by
  rw [write_str_active 4 max_len off msg hoff]
  have hnc : min (max_len - 4 - 4 - off) msg.length ≤ max_len - 4 - 4 - off :=
    min_le_left _ _
  constructor
  · show readWord 4
        (applyEvents mem
          (writeWordEvents 4 0 0x0FACADE0
            ++ copyEvents (8 + off) (msg.take (min (max_len - 4 - 4 - off) msg.length))
            ++ writeWordEvents 4 4 (off + min (max_len - 4 - 4 - off) msg.length))) 4
      = off + min (max_len - 4 - 4 - off) msg.length
    rw [readWord_len_after]
    have h256 : (256 : Nat) ^ 4 = 4294967296 := by norm_num
    have h2 : (2 : Nat) ^ 32 = 4294967296 := by norm_num
    exact Nat.mod_eq_of_lt (by omega)
  · show off + min (max_len - 4 - 4 - off) msg.length ≤ max_len - 8
    omega

/-- One `write_str` call preserves the invariant that the length field
equals the writer offset, which is at most the capacity. -/
theorem step_good (max_len : Nat) (h32 : max_len < 2 ^ 32) (r : Ram) (mem : Mem)
    (msg : List Nat) (hs : readWord 4 mem 4 = r.offset ∧ r.offset ≤ max_len - 8) :
    readWord 4 (applyEvents mem (Ram.write_str 4 max_len r msg).events) 4
        = (Ram.write_str 4 max_len r msg).ram.offset ∧
    (Ram.write_str 4 max_len r msg).ram.offset ≤ max_len - 8 := by
  obtain ⟨off⟩ := r
  by_cases hoff : max_len - 4 - 4 ≤ off
  · rw [write_str_noop 4 max_len off msg hoff]
    exact hs
  · exact step_good_active max_len h32 off mem msg (by omega)

/-- A run of `write_str` calls preserves the length-field invariant. -/
theorem runWrites_good (max_len : Nat) (h32 : max_len < 2 ^ 32) :
    ∀ (msgs : List (List Nat)) (r : Ram) (mem : Mem),
      (readWord 4 mem 4 = r.offset ∧ r.offset ≤ max_len - 8) →
      (readWord 4 (runWrites 4 max_len msgs (r, mem)).2 4
          = (runWrites 4 max_len msgs (r, mem)).1.offset ∧
        (runWrites 4 max_len msgs (r, mem)).1.offset ≤ max_len - 8) := by
  intro msgs
  induction msgs with
  | nil => intro r mem hs; exact hs
  | cons m rest ih =>
    intro r mem hs
    exact ih (Ram.write_str 4 max_len r m).ram
      (applyEvents mem (Ram.write_str 4 max_len r m).events)
      (step_good max_len h32 r mem m hs)

/-- The writer offset never decreases along a run of `write_str` calls. -/
theorem runWrites_offset_mono (ws max_len : Nat) :
    ∀ (msgs : List (List Nat)) (s : Ram × Mem),
      s.1.offset ≤ (runWrites ws max_len msgs s).1.offset := by
  intro msgs
  induction msgs with
  | nil => intro s; exact le_refl _
  | cons m rest ih =>
    intro s
    have h1 : s.1.offset ≤ (Ram.write_str ws max_len s.1 m).ram.offset := by
      rw [write_str_ram_offset]
      omega
    exact le_trans h1
      (ih ((Ram.write_str ws max_len s.1 m).ram,
        applyEvents s.2 (Ram.write_str ws max_len s.1 m).events))

/-- The final writer offset is the initial offset plus the total number of
payload bytes copied by the successive calls. -/
theorem runWrites_offset_sum (ws max_len : Nat) :
    ∀ (msgs : List (List Nat)) (r : Ram) (mem : Mem),
      (runWrites ws max_len msgs (r, mem)).1.offset
        = r.offset + (writtenList ws max_len r.offset msgs).sum := by
  intro msgs
  induction msgs with
  | nil => intro r mem; simp [runWrites, writtenList]
  | cons m rest ih =>
    intro r mem
    have h1 := ih (Ram.write_str ws max_len r m).ram
        (applyEvents mem (Ram.write_str ws max_len r m).events)
    have hwl : writtenList ws max_len r.offset (m :: rest)
        = (Ram.write_str ws max_len r m).written
            :: writtenList ws max_len (Ram.write_str ws max_len r m).ram.offset rest := rfl
    calc (runWrites ws max_len (m :: rest) (r, mem)).1.offset
        = (Ram.write_str ws max_len r m).ram.offset
            + (writtenList ws max_len (Ram.write_str ws max_len r m).ram.offset rest).sum :=
          h1
      _ = r.offset + (writtenList ws max_len r.offset (m :: rest)).sum := by
          rw [hwl, List.sum_cons, write_str_ram_offset]
          omega

/-- From a fresh writer with positive capacity, any nonempty run establishes
the length-field invariant (the first call always stores the length). -/
theorem runWrites_fresh_good (max_len : Nat) (hml : 8 < max_len)
    (h32 : max_len < 2 ^ 32) (mem0 : Mem) (msgs : List (List Nat)) (hne : msgs ≠ []) :
    readWord 4 (runWrites 4 max_len msgs (⟨0⟩, mem0)).2 4
        = (runWrites 4 max_len msgs (⟨0⟩, mem0)).1.offset ∧
    (runWrites 4 max_len msgs (⟨0⟩, mem0)).1.offset ≤ max_len - 8 := by
  match msgs, hne with
  | m :: rest, _ =>
    exact runWrites_good max_len h32 rest (Ram.write_str 4 max_len ⟨0⟩ m).ram
      (applyEvents mem0 (Ram.write_str 4 max_len ⟨0⟩ m).events)
      (step_good_active max_len h32 0 mem0 m (by omega))

/-- Claim C9, counterexample to the claim as stated: on a region of capacity
`8 - 8 = 0`, an append is a no-op that stores nothing, so after the call the
header length field still holds whatever the region held before (here 99),
not the total number of payload bytes written so far (0). -/
theorem c9_length_ce :
    readWord 4 (runWrites 4 8 [[65]] (⟨0⟩, c9BadMem)).2 4 = 99 ∧
    (writtenList 4 8 0 [[65]]).sum = 0 ∧
    readWord 4 (runWrites 4 8 [[65]] (⟨0⟩, c9BadMem)).2 4
      ≠ (writtenList 4 8 0 [[65]]).sum := by
  refine ⟨by decide, by decide, by decide⟩

/-- Claim C9 (amended): across every sequence of `write_str` calls on one
fresh writer instance over a region of positive capacity (`8 < max_len`; the
zero-capacity region is the counterexample) within the 32-bit address space,
after each call the header length field equals the total number of payload
bytes written so far (the sum of the per-call copy counts), that total never
exceeds the capacity `max_len - 8`, and the length field never decreases
from one append to the next. -/
theorem c9_length_invariant (max_len : Nat) (mem0 : Mem) (pre : List (List Nat))
    (msg : List Nat) (hml : 8 < max_len) (h32 : max_len < 2 ^ 32) :
    readWord 4 (runWrites 4 max_len (pre ++ [msg]) (⟨0⟩, mem0)).2 4
        = (writtenList 4 max_len 0 (pre ++ [msg])).sum ∧
    (writtenList 4 max_len 0 (pre ++ [msg])).sum ≤ max_len - 8 ∧
    (pre ≠ [] →
      readWord 4 (runWrites 4 max_len pre (⟨0⟩, mem0)).2 4
        ≤ readWord 4 (runWrites 4 max_len (pre ++ [msg]) (⟨0⟩, mem0)).2 4) := by
  have hne : pre ++ [msg] ≠ [] := by simp
  have hgood := runWrites_fresh_good max_len hml h32 mem0 (pre ++ [msg]) hne
  have hsum : (runWrites 4 max_len (pre ++ [msg]) (⟨0⟩, mem0)).1.offset
      = (writtenList 4 max_len 0 (pre ++ [msg])).sum := by
    have h := runWrites_offset_sum 4 max_len (pre ++ [msg]) ⟨0⟩ mem0
    simpa using h
  refine ⟨?_, ?_, ?_⟩
  · rw [hgood.1, hsum]
  · rw [← hsum]
    exact hgood.2
  · intro hpre
    have hg0 := runWrites_fresh_good max_len hml h32 mem0 pre hpre
    rw [hg0.1, hgood.1, runWrites_append]
    exact runWrites_offset_mono 4 max_len [msg] (runWrites 4 max_len pre (⟨0⟩, mem0))

/-- Witness for C9 at a concrete input: a 16-byte region, a first append of
two bytes and a second of one byte. -/
theorem c9_length_invariant_witness :
    8 < 16 ∧ (16 : Nat) < 2 ^ 32 ∧
    (readWord 4 (runWrites 4 16 ([[1, 2]] ++ [[3]]) (⟨0⟩, zeroMem)).2 4
        = (writtenList 4 16 0 ([[1, 2]] ++ [[3]])).sum ∧
      (writtenList 4 16 0 ([[1, 2]] ++ [[3]])).sum ≤ 16 - 8 ∧
      ([[1, 2]] ≠ ([] : List (List Nat)) →
        readWord 4 (runWrites 4 16 [[1, 2]] (⟨0⟩, zeroMem)).2 4
          ≤ readWord 4 (runWrites 4 16 ([[1, 2]] ++ [[3]]) (⟨0⟩, zeroMem)).2 4)) :=
  ⟨by decide, by norm_num,
    c9_length_invariant 16 zeroMem [[1, 2]] [3] (by decide) (by norm_num)⟩

/-! UTF-8 lemmas for claim C8. -/

theorem utf8CharOk_nil : utf8CharOk [] = false := rfl

theorem utf8CharLen_nil : utf8CharLen [] = none := rfl

theorem utf8CharLen_some {bs : List Nat} {k : Nat} (h : utf8CharLen bs = some k) :
    1 ≤ k ∧ k ≤ 4 ∧ bs ≠ [] := by
  by_cases hnil : bs = []
  · rw [hnil, utf8CharLen_nil] at h
    simp at h
  · refine ⟨?_, ?_, hnil⟩ <;>
    · simp only [utf8CharLen] at h
      split_ifs at h <;> simp_all <;> omega

theorem utf8Scan_congr : ∀ (f1 f2 : Nat) (bs : List Nat),
    bs.length ≤ f1 → bs.length ≤ f2 → utf8Scan f1 bs = utf8Scan f2 bs := by
  intro f1
  induction f1 with
  | zero =>
    intro f2 bs h1 _
    have hbs : bs = [] := List.length_eq_zero.mp (by omega)
    subst hbs
    cases f2 with
    | zero => rfl
    | succ f2 => simp [utf8Scan, utf8CharLen_nil]
  | succ f1 ih =>
    intro f2 bs h1 h2
    match f2 with
    | 0 =>
      have hbs : bs = [] := List.length_eq_zero.mp (by omega)
      subst hbs
      simp [utf8Scan, utf8CharLen_nil]
    | f2 + 1 =>
      simp only [utf8Scan]
      cases hcl : utf8CharLen bs with
      | none => rfl
      | some k =>
        have hk := utf8CharLen_some hcl
        have hlen : bs.length ≠ 0 := fun hc => hk.2.2 (List.length_eq_zero.mp hc)
        have hdrop : (bs.drop k).length = bs.length - k := List.length_drop k bs
        show k + utf8Scan f1 (bs.drop k) = k + utf8Scan f2 (bs.drop k)
        rw [ih f2 (bs.drop k) (by omega) (by omega)]

theorem utf8Ok_congr : ∀ (f1 f2 : Nat) (bs : List Nat),
    bs.length ≤ f1 → bs.length ≤ f2 → utf8Ok f1 bs = utf8Ok f2 bs := by
  intro f1
  induction f1 with
  | zero =>
    intro f2 bs h1 _
    have hbs : bs = [] := List.length_eq_zero.mp (by omega)
    subst hbs
    cases f2 with
    | zero => rfl
    | succ f2 => simp [utf8Ok]
  | succ f1 ih =>
    intro f2 bs h1 h2
    match f2 with
    | 0 =>
      have hbs : bs = [] := List.length_eq_zero.mp (by omega)
      subst hbs
      simp [utf8Ok]
    | f2 + 1 =>
      simp only [utf8Ok]
      by_cases hemp : bs.isEmpty
      · rw [if_pos hemp, if_pos hemp]
      · rw [if_neg hemp, if_neg hemp]
        cases hcl : utf8CharLen bs with
        | none => rfl
        | some k =>
          have hk := utf8CharLen_some hcl
          have hlen : bs.length ≠ 0 := fun hc => hk.2.2 (List.length_eq_zero.mp hc)
          have hdrop : (bs.drop k).length = bs.length - k := List.length_drop k bs
          show utf8Ok f1 (bs.drop k) = utf8Ok f2 (bs.drop k)
          rw [ih f2 (bs.drop k) (by omega) (by omega)]

theorem utf8ValidUpTo_unfold (bs : List Nat) :
    utf8ValidUpTo bs =
      match utf8CharLen bs with
      | none => 0
      | some k => k + utf8ValidUpTo (bs.drop k) := by
  cases hcl : utf8CharLen bs with
  | none =>
    cases hl : bs.length with
    | zero =>
      unfold utf8ValidUpTo
      rw [hl]
      rfl
    | succ l =>
      unfold utf8ValidUpTo
      rw [hl]
      simp [utf8Scan, hcl]
  | some k =>
    have hk := utf8CharLen_some hcl
    have hne : bs.length ≠ 0 := fun hc => hk.2.2 (List.length_eq_zero.mp hc)
    obtain ⟨l, hl⟩ : ∃ l, bs.length = l + 1 := ⟨bs.length - 1, by omega⟩
    unfold utf8ValidUpTo
    rw [hl]
    simp only [utf8Scan, hcl]
    congr 1
    exact utf8Scan_congr l _ (bs.drop k)
      (by rw [List.length_drop]; omega) (le_refl _)

theorem isUtf8_nil : isUtf8 [] = true := rfl

theorem isUtf8_unfold (bs : List Nat) (hne : bs ≠ []) :
    isUtf8 bs =
      match utf8CharLen bs with
      | none => false
      | some k => isUtf8 (bs.drop k) := by
  have hlen : bs.length ≠ 0 := fun hc => hne (List.length_eq_zero.mp hc)
  obtain ⟨l, hl⟩ : ∃ l, bs.length = l + 1 := ⟨bs.length - 1, by omega⟩
  have hemp : ¬(bs.isEmpty = true) := by
    simp [List.isEmpty_iff, hne]
  unfold isUtf8
  rw [hl]
  simp only [utf8Ok]
  rw [if_neg hemp]
  cases hcl : utf8CharLen bs with
  | none => rfl
  | some k =>
    have hk := utf8CharLen_some hcl
    exact utf8Ok_congr l _ (bs.drop k) (by rw [List.length_drop]; omega) (le_refl _)

/-- The head-character scan is stable under taking prefixes: on `bs.take n`
it finds the same character when the character fits in the prefix, and
nothing otherwise. -/
theorem utf8CharLen_take (bs : List Nat) (n : Nat) :
    utf8CharLen (bs.take n) =
      match utf8CharLen bs with
      | none => none
      | some k => if k ≤ n then some k else none := by
  have e : ∀ i : Nat, (bs.take n).take i = bs.take (min i n) :=
    fun i => List.take_take i n bs
  cases hcl : utf8CharLen bs with
  | none =>
    simp only [utf8CharLen] at hcl
    split_ifs at hcl with t1 t2 t3 t4
    · have hth : ∀ j : Nat, j ≤ 4 → utf8CharOk (bs.take j) = false := by
        intro j hj
        interval_cases j
        · rw [List.take_zero]
          exact utf8CharOk_nil
        · simpa using t1
        · simpa using t2
        · simpa using t3
        · simpa using t4
      have c1 := hth (min 1 n) (by omega)
      have c2 := hth (min 2 n) (by omega)
      have c3 := hth (min 3 n) (by omega)
      have c4 := hth (min 4 n) (by omega)
      simp [utf8CharLen, e, c1, c2, c3, c4]
  | some k =>
    simp only [utf8CharLen] at hcl
    split_ifs at hcl with t1 t2 t3 t4
    · -- k = 1
      have hk : k = 1 := by simpa using hcl.symm
      subst hk
      by_cases hn : 1 ≤ n
      · have m1 : min 1 n = 1 := by omega
        simp [utf8CharLen, e, m1, t1, hn]
      · have hn0 : n = 0 := by omega
        subst hn0
        simp [utf8CharLen_nil]
    · -- k = 2
      have hk : k = 2 := by simpa using hcl.symm
      subst hk
      by_cases hn : 2 ≤ n
      · have m1 : min 1 n = 1 := by omega
        have m2 : min 2 n = 2 := by omega
        simp [utf8CharLen, e, m1, m2, t1, t2, hn]
      · have hn' : n < 2 := by omega
        interval_cases n
        · simp [utf8CharLen_nil]
        · have m : ∀ i : Nat, 1 ≤ i → min i 1 = 1 := by intro i hi; omega
          simp [utf8CharLen, e, m 1 (by omega), m 2 (by omega), m 3 (by omega),
            m 4 (by omega), t1]
    · -- k = 3
      have hk : k = 3 := by simpa using hcl.symm
      subst hk
      by_cases hn : 3 ≤ n
      · have m1 : min 1 n = 1 := by omega
        have m2 : min 2 n = 2 := by omega
        have m3 : min 3 n = 3 := by omega
        simp [utf8CharLen, e, m1, m2, m3, t1, t2, t3, hn]
      · have hn' : n < 3 := by omega
        interval_cases n
        · simp [utf8CharLen_nil]
        · have m : ∀ i : Nat, 1 ≤ i → min i 1 = 1 := by intro i hi; omega
          simp [utf8CharLen, e, m 1 (by omega), m 2 (by omega), m 3 (by omega),
            m 4 (by omega), t1]
        · have m1 : min 1 2 = 1 := by omega
          have m : ∀ i : Nat, 2 ≤ i → min i 2 = 2 := by intro i hi; omega
          simp [utf8CharLen, e, m1, m 2 (by omega), m 3 (by omega), m 4 (by omega),
            t1, t2]
    · -- k = 4
      have hk : k = 4 := by simpa using hcl.symm
      subst hk
      by_cases hn : 4 ≤ n
      · have m1 : min 1 n = 1 := by omega
        have m2 : min 2 n = 2 := by omega
        have m3 : min 3 n = 3 := by omega
        have m4 : min 4 n = 4 := by omega
        simp [utf8CharLen, e, m1, m2, m3, m4, t1, t2, t3, t4, hn]
      · have hn' : n < 4 := by omega
        interval_cases n
        · simp [utf8CharLen_nil]
        · have m : ∀ i : Nat, 1 ≤ i → min i 1 = 1 := by intro i hi; omega
          simp [utf8CharLen, e, m 1 (by omega), m 2 (by omega), m 3 (by omega),
            m 4 (by omega), t1]
        · have m1 : min 1 2 = 1 := by omega
          have m : ∀ i : Nat, 2 ≤ i → min i 2 = 2 := by intro i hi; omega
          simp [utf8CharLen, e, m1, m 2 (by omega), m 3 (by omega), m 4 (by omega),
            t1, t2]
        · have m1 : min 1 3 = 1 := by omega
          have m2 : min 2 3 = 2 := by omega
          have m : ∀ i : Nat, 3 ≤ i → min i 3 = 3 := by intro i hi; omega
          simp [utf8CharLen, e, m1, m2, m 3 (by omega), m 4 (by omega), t1, t2, t3]

/-- Auxiliary form of the prefix-validity lemma, by induction on a length
bound. -/
theorem isUtf8_take_validUpTo_aux : ∀ (N : Nat) (bs : List Nat), bs.length ≤ N →
    isUtf8 (bs.take (utf8ValidUpTo bs)) = true := by
  intro N
  induction N with
  | zero =>
    intro bs h
    have hbs : bs = [] := List.length_eq_zero.mp (by omega)
    subst hbs
    rfl
  | succ N ih =>
    intro bs hlen
    rw [utf8ValidUpTo_unfold]
    cases hcl : utf8CharLen bs with
    | none =>
      simp [isUtf8_nil]
    | some k =>
      have hk := utf8CharLen_some hcl
      have hbslen : bs.length ≠ 0 := fun hc => hk.2.2 (List.length_eq_zero.mp hc)
      have hne2 : bs.take (k + utf8ValidUpTo (bs.drop k)) ≠ [] := by
        intro hc
        have hlc := congrArg List.length hc
        rw [List.length_take] at hlc
        simp only [List.length_nil] at hlc
        omega
      rw [isUtf8_unfold _ hne2]
      have hstab : utf8CharLen (bs.take (k + utf8ValidUpTo (bs.drop k))) = some k := by
        rw [utf8CharLen_take, hcl]
        exact if_pos (by omega)
      simp only [hstab]
      rw [List.drop_take]
      have harith : k + utf8ValidUpTo (bs.drop k) - k = utf8ValidUpTo (bs.drop k) := by
        omega
      rw [harith]
      exact ih (bs.drop k) (by rw [List.length_drop]; omega)

/-- The scan position is a valid prefix: taking `utf8ValidUpTo bs` bytes of
`bs` yields valid UTF-8. -/
theorem isUtf8_take_validUpTo (bs : List Nat) :
    isUtf8 (bs.take (utf8ValidUpTo bs)) = true :=
  isUtf8_take_validUpTo_aux bs.length bs (le_refl _)

/-- Auxiliary form of the maximality lemma, by induction on a length
bound. -/
theorem take_le_validUpTo_aux : ∀ (N : Nat) (bs : List Nat), bs.length ≤ N →
    ∀ n : Nat, n ≤ bs.length → isUtf8 (bs.take n) = true → n ≤ utf8ValidUpTo bs := by
  intro N
  induction N with
  | zero =>
    intro bs hl n hn _
    omega
  | succ N ih =>
    intro bs hl n hn hv
    match n with
    | 0 => exact Nat.zero_le _
    | Nat.succ m =>
      have hne : bs.take (m + 1) ≠ [] := by
        intro hc
        have hlc := congrArg List.length hc
        rw [List.length_take] at hlc
        simp only [List.length_nil] at hlc
        omega
      rw [isUtf8_unfold _ hne] at hv
      cases hcl2 : utf8CharLen (bs.take (m + 1)) with
      | none =>
        rw [hcl2] at hv
        simp at hv
      | some k =>
        simp only [hcl2] at hv
        have hreflect : utf8CharLen bs = some k ∧ k ≤ m + 1 := by
          have h := utf8CharLen_take bs (m + 1)
          rw [hcl2] at h
          cases hcl3 : utf8CharLen bs with
          | none =>
            rw [hcl3] at h
            simp at h
          | some k2 =>
            rw [hcl3] at h
            have h' : some k = if k2 ≤ m + 1 then some k2 else none := h
            by_cases hkn : k2 ≤ m + 1
            · rw [if_pos hkn] at h'
              have hkk : k = k2 := by simpa using h'
              subst hkk
              exact ⟨rfl, hkn⟩
            · rw [if_neg hkn] at h'
              simp at h'
        obtain ⟨hclbs, hkn⟩ := hreflect
        have hk := utf8CharLen_some hclbs
        rw [utf8ValidUpTo_unfold]
        simp only [hclbs]
        rw [List.drop_take] at hv
        have hrec := ih (bs.drop k) (by rw [List.length_drop]; omega)
          (m + 1 - k) (by rw [List.length_drop]; omega) hv
        show m + 1 ≤ k + utf8ValidUpTo (bs.drop k)
        have hsplit : m + 1 = k + (m + 1 - k) := by omega
        rw [hsplit]
        exact Nat.add_le_add_left hrec k

/-- Maximality of the scan position: no prefix of `bs` longer than
`utf8ValidUpTo bs` is valid UTF-8. -/
theorem take_le_validUpTo (bs : List Nat) (n : Nat) (hn : n ≤ bs.length)
    (hv : isUtf8 (bs.take n) = true) : n ≤ utf8ValidUpTo bs :=
  take_le_validUpTo_aux bs.length bs (le_refl _) n hn hv

/-- Claim C8: on a recovered byte view `bs`, `get_panic_message_utf8`
returns the full text when `bs` is valid UTF-8; when validation fails it
returns the longest valid UTF-8 prefix of `bs` (the scan position
`utf8ValidUpTo bs`: that prefix is valid and no longer prefix is, so the
trailing partial character is discarded); and were there no valid prefix at
all it would return nothing rather than fault (a vacuous case: the empty
prefix is always valid, matching the comment in the source that the inner
failure "shouldn't be possible"). -/
theorem c8_utf8_recovery (ws max_len : Nat) (mem : Mem) (bs : List Nat)
    (h : (get_panic_message_bytes ws max_len mem).1 = some bs) :
    (isUtf8 bs = true → (get_panic_message_utf8 ws max_len mem).1 = some bs) ∧
    (isUtf8 bs = false →
      (get_panic_message_utf8 ws max_len mem).1
          = some (bs.take (utf8ValidUpTo bs)) ∧
      isUtf8 (bs.take (utf8ValidUpTo bs)) = true ∧
      (∀ n : Nat, n ≤ bs.length → isUtf8 (bs.take n) = true →
        n ≤ utf8ValidUpTo bs)) ∧
    ((∀ n : Nat, isUtf8 (bs.take n) = false) →
      (get_panic_message_utf8 ws max_len mem).1 = none) := by
  have hu : (get_panic_message_utf8 ws max_len mem).1 = utf8Recover bs := by
    simp only [get_panic_message_utf8, h]
  refine ⟨?_, ?_, ?_⟩
  · intro hval
    rw [hu]
    unfold utf8Recover
    rw [if_pos hval]
  · intro hinval
    refine ⟨?_, isUtf8_take_validUpTo bs, fun n hn hv => take_le_validUpTo bs n hn hv⟩
    rw [hu]
    unfold utf8Recover
    rw [if_neg (by simp [hinval]), if_pos (isUtf8_take_validUpTo bs)]
  · intro hnone
    have h0 := hnone 0
    rw [List.take_zero, isUtf8_nil] at h0
    simp at h0

/-- Witness for C8 at a concrete input: the region holding the truncated
text `[0x68, 0xC3]`, recovered as the valid prefix `[0x68]`. -/
theorem c8_utf8_recovery_witness :
    (get_panic_message_bytes 4 16 utf8Mem).1 = some [0x68, 0xC3] ∧
    ((isUtf8 [0x68, 0xC3] = true →
        (get_panic_message_utf8 4 16 utf8Mem).1 = some [0x68, 0xC3]) ∧
      (isUtf8 [0x68, 0xC3] = false →
        (get_panic_message_utf8 4 16 utf8Mem).1
            = some (([0x68, 0xC3] : List Nat).take (utf8ValidUpTo [0x68, 0xC3])) ∧
        isUtf8 (([0x68, 0xC3] : List Nat).take (utf8ValidUpTo [0x68, 0xC3])) = true ∧
        (∀ n : Nat, n ≤ ([0x68, 0xC3] : List Nat).length →
          isUtf8 (([0x68, 0xC3] : List Nat).take n) = true →
          n ≤ utf8ValidUpTo [0x68, 0xC3])) ∧
      ((∀ n : Nat, isUtf8 (([0x68, 0xC3] : List Nat).take n) = false) →
        (get_panic_message_utf8 4 16 utf8Mem).1 = none)) :=
  ⟨by decide, c8_utf8_recovery 4 16 utf8Mem [0x68, 0xC3] (by decide)⟩
